import Mathlib

/-!
# Verification of the TxtLungNoduleExtractor core

A shallow embedding of the measurement-extraction pipeline and the
checkpointed batch orchestrator of this repository, together with proofs
of the specification claims.

Modelling conventions:
* Python strings are `List Char` (`Str` below); Python `float` values are
  modelled as exact rationals `ℚ` (every number the pipeline handles is a
  short decimal literal, optionally multiplied by 10).
* The regex `\d` on Python `str` matches every Unicode decimal digit
  (category Nd), and `float()` parses such digits positionally by value;
  `isDigit`/`digitVal` model this with the table of Nd block zero points.
  `\s` is modelled over ASCII whitespace; the marker/unit letters are
  ASCII (plus the micro sign).
* Scanning functions that consume a variable number of characters per step
  are written with an explicit fuel argument (the string length), so that
  they are structurally recursive and kernel-evaluable; every lemma about
  them carries the hypothesis `length ≤ fuel`.
-/

namespace TxtLung

abbrev Str := List Char

/-- The zero code points of every contiguous block of ten Unicode decimal
digits (category Nd, Unicode 14.0 — the data CPython 3.11 uses for both
`\d` in `re` and `float()` parsing). -/
def digitZeros : List ℕ :=
  [0x30, 0x660, 0x6f0, 0x7c0, 0x966, 0x9e6, 0xa66, 0xae6, 0xb66, 0xbe6,
   0xc66, 0xce6, 0xd66, 0xde6, 0xe50, 0xed0, 0xf20, 0x1040, 0x1090, 0x17e0,
   0x1810, 0x1946, 0x19d0, 0x1a80, 0x1a90, 0x1b50, 0x1bb0, 0x1c40, 0x1c50,
   0xa620, 0xa8d0, 0xa900, 0xa9d0, 0xa9f0, 0xaa50, 0xabf0, 0xff10, 0x104a0,
   0x10d30, 0x11066, 0x110f0, 0x11136, 0x111d0, 0x112f0, 0x11450, 0x114d0,
   0x11650, 0x116c0, 0x11730, 0x118e0, 0x11950, 0x11c50, 0x11d50, 0x11da0,
   0x16a60, 0x16ac0, 0x16b50, 0x1d7ce, 0x1d7d8, 0x1d7e2, 0x1d7ec, 0x1d7f6,
   0x1e140, 0x1e2f0, 0x1e950, 0x1fbf0]

/-- Unicode decimal digit: the model of the regex class `\d` on Python
`str` — any category-Nd character, not just ASCII `'0'..'9'`. -/
def isDigit (c : Char) : Bool :=
  digitZeros.any (fun z => z ≤ c.toNat && c.toNat < z + 10)

/-- ASCII decimal digit, the notion claim C10's original wording uses. -/
def isAsciiDigit (c : Char) : Bool := '0' ≤ c && c ≤ '9'

/-- ASCII whitespace, the model of the regex class `\s`. -/
def isSpaceChar (c : Char) : Bool :=
  c = ' ' || c = '\t' || c = '\n' || c = '\r' || c = '\x0b' || c = '\x0c'

/-- ASCII lower-casing, the model of `re.IGNORECASE` on the ASCII letters used here. -/
def lowerChar (c : Char) : Char :=
  if 'A' ≤ c && c ≤ 'Z' then Char.ofNat (c.toNat + 32) else c

/-- `pat` occurs as a contiguous substring of the second argument
(the model of Python `pat in s` / `re.search` for a literal pattern). -/
def containsSub (pat : Str) : Str → Bool
  | [] => pat.isEmpty
  | c :: rest => pat.isPrefixOf (c :: rest) || containsSub pat rest

/-- Python `str.replace(pat, "")` for the non-empty pattern `p :: ps`:
scan left to right, delete each occurrence, continue after it.
Fuel-indexed; `removeSub` instantiates the fuel with the string length. -/
def removeSubF (p : Char) (ps : Str) : ℕ → Str → Str
  | _, [] => []
  | 0, s => s
  | fuel + 1, c :: rest =>
    if (p :: ps).isPrefixOf (c :: rest) then removeSubF p ps fuel (rest.drop ps.length)
    else c :: removeSubF p ps fuel rest

def removeSub (p : Char) (ps : Str) (s : Str) : Str := removeSubF p ps s.length s

/-- The character map of `_normalize` (core.py lines 74-79): the six
sequential single-character `str.replace` calls commute to a per-character
map because no replacement output is a later replacement input. -/
def normChar (c : Char) : Char :=
  if c = '（' then '(' else if c = '）' then ')'
  else if c = '×' then 'x' else if c = 'X' then 'x'
  else if c = '~' then '-' else if c = '*' then '-' else c

/-- `_normalize(text).replace("(brn)", "")` (core.py lines 74-79 and 84). -/
def pyNormalize (s : Str) : Str :=
  removeSub '(' ['b', 'r', 'n', ')'] (s.map normChar)

/-- Greedy `\d+` / `\d*`: split off the maximal leading digit run. -/
def splitDigits : Str → Str × Str
  | [] => ([], [])
  | c :: cs =>
    if isDigit c then
      let p := splitDigits cs
      (c :: p.1, p.2)
    else ([], c :: cs)

/-- Greedy `\s*`: drop the maximal leading whitespace run. -/
def dropSpaces : Str → Str
  | [] => []
  | c :: cs => if isSpaceChar c then dropSpaces cs else c :: cs

/-- The unit alternation `(cm|mm|um|μm|m)?` of `_NUM_UNIT_RE` (core.py line
71), case-insensitive, alternatives tried in order; returns the canonical
lower-case unit and the remaining input.  (The source keeps the matched
text and compares `unit.lower() == "cm"`; returning the canonical form is
equivalent.) -/
def matchUnit : Str → Option (String × Str)
  | c1 :: c2 :: rest =>
    if lowerChar c1 = 'c' && lowerChar c2 = 'm' then some ("cm", rest)
    else if lowerChar c1 = 'm' && lowerChar c2 = 'm' then some ("mm", rest)
    else if lowerChar c1 = 'u' && lowerChar c2 = 'm' then some ("um", rest)
    else if (c1 = 'μ' || c1 = 'Μ') && lowerChar c2 = 'm' then some ("μm", rest)
    else if lowerChar c1 = 'm' then some ("m", c2 :: rest)
    else none
  | [c1] => if lowerChar c1 = 'm' then some ("m", []) else none
  | [] => none

/-- The decimal value of a digit character: its offset in its Nd block
(Python `float` parses every Nd digit positionally by this value). -/
def digitVal (c : Char) : ℕ :=
  match digitZeros.find? (fun z => z ≤ c.toNat && c.toNat < z + 10) with
  | some z => c.toNat - z
  | none => 0

def natOfDigits (ds : Str) : ℕ := ds.foldl (fun a c => 10 * a + digitVal c) 0

/-- The rational value of Python `float("<ip>.<fp>")`. -/
def numValue (ip fp : Str) : ℚ :=
  (natOfDigits ip : ℚ) + (natOfDigits fp : ℚ) / (10 : ℚ) ^ fp.length

/-- `\.?\d*` after the integer digits: if a dot follows, consume it
together with the greedy digit run after it; otherwise consume nothing. -/
def fracSplit : Str → Str × Str
  | '.' :: r => splitDigits r
  | r => ([], r)

/-- One match of `_NUM_UNIT_RE` (`(\d+\.?\d*)\s*(cm|mm|um|μm|m)?`) starting
at the current position (whose head is a digit): the captured value, the
captured unit (if any), and the rest of the input after the whole match. -/
def numMatch (cs : Str) : ℚ × Option String × Str :=
  let p1 := splitDigits cs
  let p2 := fracSplit p1.2
  let r3 := dropSpaces p2.2
  match matchUnit r3 with
  | some (u, r4) => (numValue p1.1 p2.1, some u, r4)
  | none => (numValue p1.1 p2.1, none, r3)

/-- `_NUM_UNIT_RE.findall`: scan left to right; a match can only start at a
digit; after a match continue after it.  Fuel-indexed. -/
def scanNumsF : ℕ → Str → List (ℚ × Option String)
  | _, [] => []
  | 0, _ => []
  | fuel + 1, c :: cs =>
    if isDigit c then
      let m := numMatch (c :: cs)
      (m.1, m.2.1) :: scanNumsF fuel m.2.2
    else scanNumsF fuel cs

def scanNums (cs : Str) : List (ℚ × Option String) := scanNumsF cs.length cs

/-- Step 1 of `extract_max_value` (core.py lines 88-95): unit conversion,
centimetres become millimetres. -/
def primaryCandidates (cs : Str) : List ℚ :=
  (scanNums cs).map (fun p => if p.2 = some "cm" then p.1 * 10 else p.1)

/-- `re.findall(r"\d+\.?\d*", text)`, the fallback scan (core.py line 99).
Fuel-indexed. -/
def bareNumsF : ℕ → Str → List ℚ
  | _, [] => []
  | 0, _ => []
  | fuel + 1, c :: cs =>
    if isDigit c then
      let p1 := splitDigits (c :: cs)
      let p2 := fracSplit p1.2
      numValue p1.1 p2.1 :: bareNumsF fuel p2.2
    else bareNumsF fuel cs

def bareNums (cs : Str) : List ℚ := bareNumsF cs.length cs

/-- Candidate list of `extract_max_value` after the fallback (core.py
lines 88-99), on the normalized text. -/
def candidateList (text : Str) : List ℚ :=
  let t := pyNormalize text
  let numbers := primaryCandidates t
  if numbers = [] then bareNums t else numbers

/-- `max(numbers)` guarded by the emptiness test (core.py lines 101-104). -/
def maxCandidate (text : Str) : Option ℚ := (candidateList text).max?

/-- `has_cm` (core.py line 107): case-insensitive "cm" or the CJK word in
the raw text. -/
def has_cm (raw : Str) : Bool :=
  containsSub ['c', 'm'] (raw.map lowerChar) || containsSub ['厘', '米'] raw

/-- `has_mm` (core.py line 108). -/
def has_mm (raw : Str) : Bool :=
  containsSub ['m', 'm'] (raw.map lowerChar) || containsSub ['毫', '米'] raw

/-- The context-correction pass (core.py lines 110-113 / main.py lines
91-94), parameterised by the upper bound of the ambiguous band (7 in
core.py, 5 in main.py).  The trailing `int(...)` conversion does not
change the numeric value and is dropped in the `ℚ` model. -/
def finalAdjust (ub : ℚ) (cm mm : Bool) (v : ℚ) : ℚ :=
  if v < 3 ∧ cm = true then v * 10
  else if 3 ≤ v ∧ v < ub ∧ cm = true ∧ mm = false then v * 10
  else v

namespace core

/-- `extract_max_value` of core.py (lines 82-115), ambiguous-band upper
bound 7. -/
def extract_max_value (text raw_text : Str) : Option ℚ :=
  (maxCandidate text).map (finalAdjust 7 (has_cm raw_text) (has_mm raw_text))

end core

namespace main

/-- `extract_max_value` of main.py (lines 63-97): identical to the core.py
variant except for the ambiguous-band upper bound 5 (main.py line 93). -/
def extract_max_value (text raw_text : Str) : Option ℚ :=
  (maxCandidate text).map (finalAdjust 5 (has_cm raw_text) (has_mm raw_text))

end main

/-! ## `remove_img_tags` (core.py lines 38-52)

The pattern is `[（(][^)）]*?(?:lm|im|img)[^)）]*?[)）]` with `re.IGNORECASE`
and a replacer that deletes matches of length ≤ 20 and keeps longer ones.
The lazy quantifiers make the leftmost match at an opening bracket end at
the first closing bracket after the first marker occurrence reachable
without crossing a closing bracket; since `im` is tried before `img` and is
a prefix of it, the marker effectively matched is always two characters. -/

def isOpenB (c : Char) : Bool := c = '(' || c = '（'

def isCloseB (c : Char) : Bool := c = ')' || c = '）'

/-- A marker (`lm` or `im`, case-insensitively) starts at this position. -/
def markerHead (c1 c2 : Char) : Bool :=
  (lowerChar c1 = 'l' || lowerChar c1 = 'i') && lowerChar c2 = 'm'

/-- Scan `[^)）]*?(?:lm|im|img)`: find the first marker occurrence not
preceded by a closing bracket; return the consumed characters (body up to
and including the marker) and the rest. -/
def findMarker : Str → Option (Str × Str)
  | c1 :: c2 :: rest =>
    if markerHead c1 c2 then some ([c1, c2], rest)
    else if isCloseB c1 then none
    else (findMarker (c2 :: rest)).map (fun p => (c1 :: p.1, p.2))
  | _ => none

/-- Scan `[^)）]*?[)）]`: consume up to and including the first closing
bracket. -/
def findClose : Str → Option (Str × Str)
  | [] => none
  | c :: cs =>
    if isCloseB c then some ([c], cs)
    else (findClose cs).map (fun p => (c :: p.1, p.2))

/-- Attempt the tag pattern at an opening bracket `copen` followed by `cs`:
returns the whole match (brackets included) and the rest of the input. -/
def tryTagMatch (copen : Char) (cs : Str) : Option (Str × Str) :=
  match findMarker cs with
  | none => none
  | some (seg1, rest1) =>
    match findClose rest1 with
    | none => none
    | some (seg2, rest2) => some (copen :: (seg1 ++ seg2), rest2)

/-- `re.sub` scan of `remove_img_tags`: delete a match of length ≤ 20,
keep a longer match verbatim, continue after it either way.
Fuel-indexed. -/
def remove_img_tagsF : ℕ → Str → Str
  | _, [] => []
  | 0, s => s
  | fuel + 1, c :: cs =>
    if isOpenB c then
      match tryTagMatch c cs with
      | some (frag, rest) =>
        if frag.length ≤ 20 then remove_img_tagsF fuel rest
        else frag ++ remove_img_tagsF fuel rest
      | none => c :: remove_img_tagsF fuel cs
    else c :: remove_img_tagsF fuel cs

def remove_img_tags (s : Str) : Str := remove_img_tagsF s.length s

/-- The body of a bracketed fragment contains a marker substring
(`lm`/`im`, hence also any `img`), case-insensitively. -/
def containsMarker : Str → Bool
  | c1 :: c2 :: rest => markerHead c1 c2 || containsMarker (c2 :: rest)
  | _ => false

/-! ## `preprocessing` (core.py lines 55-65) -/

/-- The character map of `re.sub(r'[xX*\-~]', '×', input)`. -/
def mulChar (c : Char) : Char :=
  if c = 'x' || c = 'X' || c = '*' || c = '-' || c = '~' then '×' else c

/-- A match of `\d+(?:\.\d+)?` at the current position: the matched
characters and the rest (the fractional group needs at least one digit). -/
def matchNum (cs : Str) : Option (Str × Str) :=
  let p1 := splitDigits cs
  if p1.1 = [] then none
  else
    match p1.2 with
    | '.' :: r =>
      let p2 := splitDigits r
      if p2.1 = [] then some (p1.1, p1.2) else some (p1.1 ++ '.' :: p2.1, p2.2)
    | _ => some (p1.1, p1.2)

/-- The case-sensitive unit alternation `(mm|cm)` of the dimension
pattern. -/
def matchDimUnit : Str → Option (Str × Str)
  | 'm' :: 'm' :: r => some (['m', 'm'], r)
  | 'c' :: 'm' :: r => some (['c', 'm'], r)
  | _ => none

/-- A match of `(\d+(?:\.\d+)?)×(\d+(?:\.\d+)?)(mm|cm)` at the current
position, already rewritten to the replacement `{n1}{unit}×{n2}{unit}`. -/
def matchDim (cs : Str) : Option (Str × Str) :=
  match matchNum cs with
  | none => none
  | some (n1, r1) =>
    match r1 with
    | '×' :: r2 =>
      match matchNum r2 with
      | none => none
      | some (n2, r3) =>
        match matchDimUnit r3 with
        | none => none
        | some (u, r4) => some (n1 ++ u ++ '×' :: n2 ++ u, r4)
    | _ => none

/-- The `pattern.sub(_repl, input)` scan of `preprocessing`.
Fuel-indexed. -/
def dimSubF : ℕ → Str → Str
  | _, [] => []
  | 0, s => s
  | fuel + 1, c :: cs =>
    match matchDim (c :: cs) with
    | some (rep, rest) => rep ++ dimSubF fuel rest
    | none => c :: dimSubF fuel cs

def dimSub (s : Str) : Str := dimSubF s.length s

/-- `preprocessing` (core.py lines 55-65): strip spaces and newlines,
remove the `(brn)` noise token in both bracket forms, collapse the
separator variants to `×`, then expand the dimension shorthand. -/
def preprocessing (s : Str) : Str :=
  dimSub
    ((removeSub '（' ['b', 'r', 'n', '）']
        (removeSub '(' ['b', 'r', 'n', ')']
          ((s.filter (fun c => c ≠ ' ')).filter (fun c => c ≠ '\n')))).map mulChar)

/-! ## `filter_segments` (core.py lines 21-35) -/

def isSep (c : Char) : Bool := c = '。' || c = '；' || c = ';'

/-- Split into segments, each keeping its trailing separator; the trailing
remainder (possibly empty, matching the always-odd `re.split` parts list)
is its own final segment. -/
def splitSegsAux (acc : Str) : Str → List Str
  | [] => [acc.reverse]
  | c :: cs =>
    if isSep c then (c :: acc).reverse :: splitSegsAux [] cs
    else splitSegsAux (c :: acc) cs

/-- A segment is kept iff it contains one of the four anatomical keyword
characters and a digit. -/
def keepSeg (seg : Str) : Bool :=
  (seg.any (fun c => c = '肺' || c = '膈' || c = '肋' || c = '气')) && seg.any isDigit

def filter_segments (s : Str) : Str := ((splitSegsAux [] s).filter keepSeg).flatten

/-! ## `predict_single` (core.py lines 120-160)

The inference capability is an opaque collaborator: `llm prompt` is
`some (generated_text, elapsed_time)` on success and `none` when the call
raises; `fmt` is `prompt_template.format`.  The `try` block catches any
exception and returns `(None, 0.0)`. -/

def predict_single (llm : Str → Option (Str × ℚ)) (fmt : Str → Str)
    (input_text : Str) : Option ℚ × ℚ :=
  match llm (fmt (filter_segments (remove_img_tags (preprocessing input_text)))) with
  | some (raw, t) => (core.extract_max_value raw input_text, t)
  | none => (none, 0)

/-! ## The checkpointed batch orchestrator (core.py lines 186-404)

`batch_predict` is modelled in its sequential mode (`max_workers <= 1`,
core.py lines 290-342); the pooled mode's task list (lines 349-350) is
modelled by `pooledTasks`.  The model records, besides the mutable run
state of the source (`predictions`, `processed_indices`, `total_time`,
`processed_count`), the list of indices dispatched to `predict_single` and
the trace of externally visible checkpoint-store and output events.

Faults are modelled where the source has them:
* a per-item inference fault is `llm _ = none` inside `predict_single`
  (caught there, core.py lines 158-160);
* an orchestration-level fault inside the loop body (e.g. `row['yxbx']`
  raising) is an `Except.error` row — the `except` handlers (core.py lines
  328-342) save a checkpoint and re-raise;
* `loadOk = false` is `Llama(...)` raising at startup (core.py lines
  302-304), which returns `(None, 0.0, model_name)` normally. -/

instance {ε α : Type} [DecidableEq ε] [DecidableEq α] : DecidableEq (Except ε α) := fun a b =>
  match a, b with
  | .error e, .error e' =>
    if h : e = e' then .isTrue (by rw [h]) else .isFalse (by intro hc; cases hc; exact h rfl)
  | .ok v, .ok v' =>
    if h : v = v' then .isTrue (by rw [h]) else .isFalse (by intro hc; cases hc; exact h rfl)
  | .error _, .ok _ => .isFalse (by intro hc; cases hc)
  | .ok _, .error _ => .isFalse (by intro hc; cases hc)

structure Checkpoint where
  predictions : List (Option ℚ)
  processed_indices : Finset ℕ
  total_time : ℚ
deriving DecidableEq

/-- Externally visible events: a checkpoint save with its snapshot, the
checkpoint deletion, and the caller persisting the output table. -/
inductive Ev where
  | save (c : Checkpoint)
  | clear
  | persistOutput
deriving DecidableEq

structure LoopState where
  predictions : List (Option ℚ)
  processed_indices : Finset ℕ
  total_time : ℚ
  processed_count : ℕ
  dispatched : List ℕ
  events : List Ev
deriving DecidableEq

def ckptOf (st : LoopState) : Checkpoint :=
  ⟨st.predictions, st.processed_indices, st.total_time⟩

/-- `checkpoint_manager.save_checkpoint(...)` (core.py lines 203-223). -/
def ckptSave (st : LoopState) : LoopState :=
  { st with events := st.events ++ [Ev.save (ckptOf st)] }

/-- One loop iteration on an unprocessed index (core.py lines 316-327):
call `predict_single`, write the slot, mark processed, accumulate time,
bump the counter, and save a checkpoint when the counter hits a multiple
of the save interval. -/
def stepItem (ps : Str → Option ℚ × ℚ) (save_interval : ℕ)
    (st : LoopState) (idx : ℕ) (text : Str) : LoopState :=
  let r := ps text
  let st' : LoopState :=
    { predictions := st.predictions.set idx r.1
      processed_indices := insert idx st.processed_indices
      total_time := st.total_time + r.2
      processed_count := st.processed_count + 1
      dispatched := st.dispatched ++ [idx]
      events := st.events }
  if (st.processed_count + 1) % save_interval = 0 then ckptSave st' else st'

/-- The sequential `for idx, row in df.iterrows()` loop (core.py lines
311-342): skip processed indices; an `Except.error` row models an
exception escaping the per-item handling, on which the handler saves a
checkpoint and re-raises (the error value is the state at that point). -/
def runSeq (ps : Str → Option ℚ × ℚ) (si : ℕ) :
    List (ℕ × Except Unit Str) → LoopState → Except LoopState LoopState
  | [], st => .ok st
  | (idx, r) :: rest, st =>
    if idx ∈ st.processed_indices then runSeq ps si rest st
    else
      match r with
      | .error _ => .error (ckptSave st)
      | .ok text => runSeq ps si rest (stepItem ps si st idx text)

/-- The same loop restricted to fault-free rows (total). -/
def runSeqOk (ps : Str → Option ℚ × ℚ) (si : ℕ) :
    List (ℕ × Str) → LoopState → LoopState
  | [], st => st
  | (idx, text) :: rest, st =>
    if idx ∈ st.processed_indices then runSeqOk ps si rest st
    else runSeqOk ps si rest (stepItem ps si st idx text)

/-- Checkpoint rehydration or fresh start (core.py lines 275-286); the
per-run `processed_count` always starts at 0 (line 309). -/
def initState (n : ℕ) (ck : Option Checkpoint) : LoopState :=
  match ck with
  | some c => ⟨c.predictions, c.processed_indices, c.total_time, 0, [], []⟩
  | none => ⟨List.replicate n none, ∅, 0, 0, [], []⟩

/-- `batch_predict` in sequential mode (core.py lines 252-404).  The first
component of a normal return is the `predictions` value returned to the
caller — `none` models the literal Python `None` returned when the model
fails to load (line 304); otherwise the final state carries the trace: the
loop events, the unconditional final save (line 393) and the checkpoint
deletion (line 402). -/
def batch_predict (loadOk : Bool) (ps : Str → Option ℚ × ℚ) (si : ℕ)
    (rows : List (Except Unit Str)) (ck : Option Checkpoint) :
    Except LoopState (Option (List (Option ℚ)) × LoopState) :=
  if loadOk = false then .ok (none, initState rows.length ck)
  else
    match runSeq ps si rows.enum (initState rows.length ck) with
    | .error st => .error st
    | .ok st =>
      let st1 := ckptSave st
      let st2 := { st1 with events := st1.events ++ [Ev.clear] }
      .ok (some st2.predictions, st2)

/-- The final state of a fault-free sequential run (loop, final save,
clear). -/
def batchFinal (ps : Str → Option ℚ × ℚ) (si : ℕ) (rows : List Str)
    (ck : Option Checkpoint) : LoopState :=
  let st := runSeqOk ps si rows.enum (initState rows.length ck)
  let st1 := ckptSave st
  { st1 with events := st1.events ++ [Ev.clear] }

/-- The pooled-mode task list (core.py lines 349-350): the unprocessed
`(idx, text)` pairs in dataset order. -/
def pooledTasks (rows : List Str) (processed : Finset ℕ) : List (ℕ × Str) :=
  rows.enum.filter (fun p => decide (p.1 ∉ processed))

/-- `MedicalPredictorGUI.run_prediction` (gui.py lines 327-351), single
model, no stop request: run `batch_predict`, then persist the output with
`df.to_excel`; an exception from `batch_predict` is caught and shown, and
nothing is persisted. -/
def run_prediction (loadOk : Bool) (ps : Str → Option ℚ × ℚ) (si : ℕ)
    (rows : List (Except Unit Str)) (ck : Option Checkpoint) :
    Except LoopState (Option (List (Option ℚ)) × List Ev) :=
  match batch_predict loadOk ps si rows ck with
  | .error st => .error st
  | .ok (preds, st) => .ok (preds, st.events ++ [Ev.persistOutput])

/-- The event trace of a `run_prediction` outcome (on the fault path, the
events recorded up to the propagated exception). -/
def eventsOf (r : Except LoopState (Option (List (Option ℚ)) × List Ev)) : List Ev :=
  match r with
  | .error st => st.events
  | .ok (_, evs) => evs

/-- The property asserted by claim C4 for a trace: no checkpoint deletion
happens strictly before an output persist. -/
def noClearBeforePersist : List Ev → Bool
  | [] => true
  | Ev.clear :: rest => !rest.contains Ev.persistOutput && noClearBeforePersist rest
  | _ :: rest => noClearBeforePersist rest

/-- The slot/processed-set consistency invariant of claim C8 restricted to
the direction the code maintains: a set (non-`none`) slot belongs to a
processed index. -/
def SlotInv (preds : List (Option ℚ)) (S : Finset ℕ) : Prop :=
  ∀ i v, preds[i]? = some (some v) → i ∈ S

/-! ### Orchestration lemmas -/

theorem stepItem_predictions (ps : Str → Option ℚ × ℚ) (si : ℕ) (st : LoopState)
    (idx : ℕ) (t : Str) :
    (stepItem ps si st idx t).predictions = st.predictions.set idx (ps t).1 := by
  unfold stepItem ckptSave; dsimp only; split <;> rfl

theorem stepItem_processed (ps : Str → Option ℚ × ℚ) (si : ℕ) (st : LoopState)
    (idx : ℕ) (t : Str) :
    (stepItem ps si st idx t).processed_indices = insert idx st.processed_indices := by
  unfold stepItem ckptSave; dsimp only; split <;> rfl

theorem stepItem_count (ps : Str → Option ℚ × ℚ) (si : ℕ) (st : LoopState)
    (idx : ℕ) (t : Str) :
    (stepItem ps si st idx t).processed_count = st.processed_count + 1 := by
  unfold stepItem ckptSave; dsimp only; split <;> rfl

theorem stepItem_dispatched (ps : Str → Option ℚ × ℚ) (si : ℕ) (st : LoopState)
    (idx : ℕ) (t : Str) :
    (stepItem ps si st idx t).dispatched = st.dispatched ++ [idx] := by
  unfold stepItem ckptSave; dsimp only; split <;> rfl

theorem stepItem_saves (ps : Str → Option ℚ × ℚ) (si : ℕ) (st : LoopState)
    (idx : ℕ) (t : Str) (c : Checkpoint)
    (h : Ev.save c ∈ (stepItem ps si st idx t).events) :
    Ev.save c ∈ st.events ∨
      (c.predictions = (stepItem ps si st idx t).predictions ∧
        c.processed_indices = (stepItem ps si st idx t).processed_indices) := by
  revert h; unfold stepItem ckptSave; dsimp only; split
  · intro h
    rcases List.mem_append.mp h with h | h
    · exact .inl h
    · simp only [List.mem_singleton, Ev.save.injEq] at h
      subst h; right; exact ⟨rfl, rfl⟩
  · intro h; exact .inl h

theorem runSeqOk_nil (ps : Str → Option ℚ × ℚ) (si : ℕ) (st : LoopState) :
    runSeqOk ps si [] st = st := rfl

theorem runSeqOk_cons_mem (ps : Str → Option ℚ × ℚ) (si : ℕ) (st : LoopState)
    {idx : ℕ} (t : Str) (rest : List (ℕ × Str)) (h : idx ∈ st.processed_indices) :
    runSeqOk ps si ((idx, t) :: rest) st = runSeqOk ps si rest st := by
  simp [runSeqOk, h]

theorem runSeqOk_cons_not_mem (ps : Str → Option ℚ × ℚ) (si : ℕ) (st : LoopState)
    {idx : ℕ} (t : Str) (rest : List (ℕ × Str)) (h : idx ∉ st.processed_indices) :
    runSeqOk ps si ((idx, t) :: rest) st = runSeqOk ps si rest (stepItem ps si st idx t) := by
  simp [runSeqOk, h]

theorem runSeqOk_mem_processed (ps : Str → Option ℚ × ℚ) (si : ℕ) :
    ∀ (l : List (ℕ × Str)) (st : LoopState) (i : ℕ),
      i ∈ (runSeqOk ps si l st).processed_indices ↔
        i ∈ st.processed_indices ∨ i ∈ l.map Prod.fst := by
  intro l
  induction l with
  | nil => intro st i; simp [runSeqOk]
  | cons p rest ih =>
    intro st i
    obtain ⟨idx, t⟩ := p
    by_cases h : idx ∈ st.processed_indices
    · rw [runSeqOk_cons_mem ps si st t rest h, ih]
      simp only [List.map_cons, List.mem_cons]
      constructor
      · rintro (hs | hr)
        · exact .inl hs
        · exact .inr (.inr hr)
      · rintro (hs | rfl | hr)
        · exact .inl hs
        · exact .inl h
        · exact .inr hr
    · rw [runSeqOk_cons_not_mem ps si st t rest h, ih, stepItem_processed]
      simp only [Finset.mem_insert, List.map_cons, List.mem_cons]
      tauto

theorem runSeqOk_length (ps : Str → Option ℚ × ℚ) (si : ℕ) :
    ∀ (l : List (ℕ × Str)) (st : LoopState),
      (runSeqOk ps si l st).predictions.length = st.predictions.length := by
  intro l
  induction l with
  | nil => intro st; rfl
  | cons p rest ih =>
    intro st
    obtain ⟨idx, t⟩ := p
    by_cases h : idx ∈ st.processed_indices
    · rw [runSeqOk_cons_mem ps si st t rest h]; exact ih st
    · rw [runSeqOk_cons_not_mem ps si st t rest h, ih, stepItem_predictions]
      simp

theorem runSeqOk_slot_untouched (ps : Str → Option ℚ × ℚ) (si : ℕ) :
    ∀ (l : List (ℕ × Str)) (st : LoopState) (i : ℕ), i ∉ l.map Prod.fst →
      (runSeqOk ps si l st).predictions[i]? = st.predictions[i]? := by
  intro l
  induction l with
  | nil => intro st i _; rfl
  | cons p rest ih =>
    intro st i hi
    obtain ⟨idx, t⟩ := p
    simp only [List.map_cons, List.mem_cons, not_or] at hi
    by_cases h : idx ∈ st.processed_indices
    · rw [runSeqOk_cons_mem ps si st t rest h]; exact ih st i hi.2
    · rw [runSeqOk_cons_not_mem ps si st t rest h, ih _ i hi.2, stepItem_predictions,
        List.getElem?_set_ne (fun hc => hi.1 hc.symm)]

theorem runSeqOk_slot_skipped (ps : Str → Option ℚ × ℚ) (si : ℕ) :
    ∀ (l : List (ℕ × Str)) (st : LoopState) (i : ℕ), i ∈ st.processed_indices →
      (runSeqOk ps si l st).predictions[i]? = st.predictions[i]? := by
  intro l
  induction l with
  | nil => intro st i _; rfl
  | cons p rest ih =>
    intro st i hi
    obtain ⟨idx, t⟩ := p
    by_cases h : idx ∈ st.processed_indices
    · rw [runSeqOk_cons_mem ps si st t rest h]; exact ih st i hi
    · have hne : idx ≠ i := fun hc => h (hc ▸ hi)
      rw [runSeqOk_cons_not_mem ps si st t rest h,
        ih _ i (by rw [stepItem_processed]; exact Finset.mem_insert_of_mem hi),
        stepItem_predictions, List.getElem?_set_ne hne]

theorem runSeqOk_slot (ps : Str → Option ℚ × ℚ) (si : ℕ) :
    ∀ (l : List (ℕ × Str)) (st : LoopState) (i : ℕ) (t : Str),
      (l.map Prod.fst).Nodup → (i, t) ∈ l → i ∉ st.processed_indices →
      i < st.predictions.length →
      (runSeqOk ps si l st).predictions[i]? = some (ps t).1 := by
  intro l
  induction l with
  | nil => intro st i t _ hmem; cases hmem
  | cons p rest ih =>
    intro st i t hnd hmem hnotp hlen
    obtain ⟨idx, u⟩ := p
    have hnd2 : idx ∉ rest.map Prod.fst ∧ (rest.map Prod.fst).Nodup := by
      rw [List.map_cons, List.nodup_cons] at hnd; exact hnd
    have hhd : idx ∉ rest.map Prod.fst := hnd2.1
    rcases List.mem_cons.mp hmem with heq | hmem'
    · obtain ⟨rfl, rfl⟩ := Prod.mk.injEq .. |>.mp heq
      rw [runSeqOk_cons_not_mem ps si st t rest hnotp,
        runSeqOk_slot_untouched ps si rest _ i hhd, stepItem_predictions]
      exact List.getElem?_set_eq_of_lt _ hlen
    · have hne : i ≠ idx := by
        intro hc
        exact hhd (hc ▸ (List.mem_map.mpr ⟨(i, t), hmem', rfl⟩))
      by_cases h : idx ∈ st.processed_indices
      · rw [runSeqOk_cons_mem ps si st u rest h]
        exact ih st i t hnd2.2 hmem' hnotp hlen
      · rw [runSeqOk_cons_not_mem ps si st u rest h]
        apply ih _ i t hnd2.2 hmem'
        · rw [stepItem_processed]
          simp only [Finset.mem_insert, not_or]
          exact ⟨hne, hnotp⟩
        · rw [stepItem_predictions]; simpa using hlen

theorem runSeqOk_dispatched (ps : Str → Option ℚ × ℚ) (si : ℕ) :
    ∀ (l : List (ℕ × Str)) (st : LoopState), (l.map Prod.fst).Nodup →
      (runSeqOk ps si l st).dispatched =
        st.dispatched ++ (l.filter (fun p => decide (p.1 ∉ st.processed_indices))).map Prod.fst := by
  intro l
  induction l with
  | nil => intro st _; simp [runSeqOk]
  | cons p rest ih =>
    intro st hnd
    obtain ⟨idx, t⟩ := p
    have hnd2 : idx ∉ rest.map Prod.fst ∧ (rest.map Prod.fst).Nodup := by
      rw [List.map_cons, List.nodup_cons] at hnd; exact hnd
    have hhd : idx ∉ rest.map Prod.fst := hnd2.1
    have hnd' : (rest.map Prod.fst).Nodup := hnd2.2
    by_cases h : idx ∈ st.processed_indices
    · rw [runSeqOk_cons_mem ps si st t rest h, ih st hnd']
      simp [List.filter_cons, h]
    · rw [runSeqOk_cons_not_mem ps si st t rest h, ih _ hnd', stepItem_dispatched,
        stepItem_processed]
      have hfilter : rest.filter (fun p => decide (p.1 ∉ insert idx st.processed_indices)) =
          rest.filter (fun p => decide (p.1 ∉ st.processed_indices)) := by
        apply List.filter_congr
        intro p hp
        have hne : p.1 ≠ idx := by
          intro hc
          exact hhd (hc ▸ (List.mem_map.mpr ⟨p, hp, rfl⟩))
        simp [Finset.mem_insert, hne]
      rw [hfilter]
      simp [List.filter_cons, h]

theorem runSeqOk_count (ps : Str → Option ℚ × ℚ) (si : ℕ) :
    ∀ (l : List (ℕ × Str)) (st : LoopState), (l.map Prod.fst).Nodup →
      (runSeqOk ps si l st).processed_count =
        st.processed_count +
          (l.filter (fun p => decide (p.1 ∉ st.processed_indices))).length := by
  intro l
  induction l with
  | nil => intro st _; simp [runSeqOk]
  | cons p rest ih =>
    intro st hnd
    obtain ⟨idx, t⟩ := p
    have hnd2 : idx ∉ rest.map Prod.fst ∧ (rest.map Prod.fst).Nodup := by
      rw [List.map_cons, List.nodup_cons] at hnd; exact hnd
    have hhd : idx ∉ rest.map Prod.fst := hnd2.1
    have hnd' : (rest.map Prod.fst).Nodup := hnd2.2
    by_cases h : idx ∈ st.processed_indices
    · rw [runSeqOk_cons_mem ps si st t rest h, ih st hnd']
      simp [List.filter_cons, h]
    · rw [runSeqOk_cons_not_mem ps si st t rest h, ih _ hnd', stepItem_count,
        stepItem_processed]
      have hfilter : rest.filter (fun p => decide (p.1 ∉ insert idx st.processed_indices)) =
          rest.filter (fun p => decide (p.1 ∉ st.processed_indices)) := by
        apply List.filter_congr
        intro p hp
        have hne : p.1 ≠ idx := by
          intro hc
          exact hhd (hc ▸ (List.mem_map.mpr ⟨p, hp, rfl⟩))
        simp [Finset.mem_insert, hne]
      rw [hfilter]
      simp [List.filter_cons, h]
      omega

theorem stepItem_SlotInv (ps : Str → Option ℚ × ℚ) (si : ℕ) (st : LoopState)
    (idx : ℕ) (t : Str) (h : SlotInv st.predictions st.processed_indices) :
    SlotInv (stepItem ps si st idx t).predictions (stepItem ps si st idx t).processed_indices := by
  rw [stepItem_predictions, stepItem_processed]
  intro i v hiv
  by_cases hi : i = idx
  · subst hi; exact Finset.mem_insert_self i _
  · rw [List.getElem?_set_ne (fun hc => hi hc.symm)] at hiv
    exact Finset.mem_insert_of_mem (h i v hiv)

theorem runSeqOk_SlotInv (ps : Str → Option ℚ × ℚ) (si : ℕ) :
    ∀ (l : List (ℕ × Str)) (st : LoopState),
      SlotInv st.predictions st.processed_indices →
      (∀ c, Ev.save c ∈ st.events → SlotInv c.predictions c.processed_indices) →
      SlotInv (runSeqOk ps si l st).predictions (runSeqOk ps si l st).processed_indices ∧
        ∀ c, Ev.save c ∈ (runSeqOk ps si l st).events →
          SlotInv c.predictions c.processed_indices := by
  intro l
  induction l with
  | nil => intro st h hs; exact ⟨h, hs⟩
  | cons p rest ih =>
    intro st h hs
    obtain ⟨idx, t⟩ := p
    by_cases hm : idx ∈ st.processed_indices
    · rw [runSeqOk_cons_mem ps si st t rest hm]; exact ih st h hs
    · rw [runSeqOk_cons_not_mem ps si st t rest hm]
      apply ih
      · exact stepItem_SlotInv ps si st idx t h
      · intro c hc
        rcases stepItem_saves ps si st idx t c hc with hc' | ⟨hp, hq⟩
        · exact hs c hc'
        · rw [hp, hq]
          exact stepItem_SlotInv ps si st idx t h

theorem runSeq_ok_rows (ps : Str → Option ℚ × ℚ) (si : ℕ) :
    ∀ (l : List (ℕ × Str)) (st : LoopState),
      runSeq ps si (l.map (fun p => (p.1, Except.ok p.2))) st = .ok (runSeqOk ps si l st) := by
  intro l
  induction l with
  | nil => intro st; rfl
  | cons p rest ih =>
    intro st
    obtain ⟨idx, t⟩ := p
    by_cases h : idx ∈ st.processed_indices <;> simp [runSeq, runSeqOk, h, ih]

theorem runSeq_error_saved (ps : Str → Option ℚ × ℚ) (si : ℕ) :
    ∀ (l : List (ℕ × Except Unit Str)) (st st' : LoopState),
      runSeq ps si l st = .error st' → ∃ stP : LoopState, st' = ckptSave stP := by
  intro l
  induction l with
  | nil => intro st st' h; cases h
  | cons p rest ih =>
    intro st st' h
    obtain ⟨idx, r⟩ := p
    by_cases hm : idx ∈ st.processed_indices
    · exact ih st st' (by simpa [runSeq, hm] using h)
    · cases r with
      | error e =>
        simp only [runSeq, hm, if_false] at h
        exact ⟨st, (Except.error.injEq .. |>.mp h).symm⟩
      | ok t =>
        exact ih _ st' (by simpa [runSeq, hm] using h)

theorem batch_predict_ok_eq (ps : Str → Option ℚ × ℚ) (si : ℕ) (rows : List Str)
    (ck : Option Checkpoint) :
    batch_predict true ps si (rows.map Except.ok) ck =
      .ok (some (batchFinal ps si rows ck).predictions, batchFinal ps si rows ck) := by
  unfold batch_predict batchFinal
  have henum : (rows.map (Except.ok : Str → Except Unit Str)).enum =
      rows.enum.map (fun p => (p.1, (Except.ok p.2 : Except Unit Str))) :=
    List.enum_map rows (Except.ok : Str → Except Unit Str)
  simp only [Bool.true_eq_false, if_false, henum, List.length_map,
    runSeq_ok_rows ps si rows.enum (initState rows.length ck)]

theorem batchFinal_predictions (ps : Str → Option ℚ × ℚ) (si : ℕ) (rows : List Str)
    (ck : Option Checkpoint) :
    (batchFinal ps si rows ck).predictions =
      (runSeqOk ps si rows.enum (initState rows.length ck)).predictions := rfl

theorem batchFinal_processed (ps : Str → Option ℚ × ℚ) (si : ℕ) (rows : List Str)
    (ck : Option Checkpoint) :
    (batchFinal ps si rows ck).processed_indices =
      (runSeqOk ps si rows.enum (initState rows.length ck)).processed_indices := rfl

theorem batchFinal_count (ps : Str → Option ℚ × ℚ) (si : ℕ) (rows : List Str)
    (ck : Option Checkpoint) :
    (batchFinal ps si rows ck).processed_count =
      (runSeqOk ps si rows.enum (initState rows.length ck)).processed_count := rfl

theorem batchFinal_dispatched (ps : Str → Option ℚ × ℚ) (si : ℕ) (rows : List Str)
    (ck : Option Checkpoint) :
    (batchFinal ps si rows ck).dispatched =
      (runSeqOk ps si rows.enum (initState rows.length ck)).dispatched := rfl

theorem batchFinal_events (ps : Str → Option ℚ × ℚ) (si : ℕ) (rows : List Str)
    (ck : Option Checkpoint) :
    (batchFinal ps si rows ck).events =
      (runSeqOk ps si rows.enum (initState rows.length ck)).events ++
        [Ev.save (ckptOf (runSeqOk ps si rows.enum (initState rows.length ck))), Ev.clear] := by
  unfold batchFinal ckptSave
  simp

/-! ### Claims about the orchestrator -/

/-- Resuming from a checkpoint whose processed slots hold exactly what an
uninterrupted run computes for them yields the uninterrupted final
prediction vector. -/
theorem resume_idempotent_general (ps : Str → Option ℚ × ℚ) (si : ℕ) (rows : List Str)
    (preds : List (Option ℚ)) (S : Finset ℕ) (T : ℚ)
    (hlen : preds.length = rows.length)
    (hS : ∀ i ∈ S, ∃ hi : i < rows.length, preds[i]? = some ((ps rows[i]).1)) :
    (batchFinal ps si rows (some ⟨preds, S, T⟩)).predictions =
      (batchFinal ps si rows none).predictions := by
  rw [batchFinal_predictions, batchFinal_predictions]
  have hnd : (rows.enum.map Prod.fst).Nodup := by
    rw [List.enum_map_fst]; exact List.nodup_range _
  have hA : initState rows.length (some ⟨preds, S, T⟩) = ⟨preds, S, T, 0, [], []⟩ := rfl
  have hB : initState rows.length (none : Option Checkpoint) =
      ⟨List.replicate rows.length none, ∅, 0, 0, [], []⟩ := rfl
  apply List.ext_getElem?
  intro i
  by_cases hin : i < rows.length
  · have hmem : (i, rows[i]) ∈ rows.enum := by
      rw [List.mem_enum_iff_getElem?]
      simp [List.getElem?_eq_getElem hin]
    have hrhs : (runSeqOk ps si rows.enum
        (initState rows.length (none : Option Checkpoint))).predictions[i]? =
        some ((ps rows[i]).1) := by
      apply runSeqOk_slot ps si rows.enum _ i rows[i] hnd hmem
      · rw [hB]; exact Finset.not_mem_empty i
      · rw [hB]; simpa using hin
    rw [hrhs]
    by_cases hiS : i ∈ S
    · rw [runSeqOk_slot_skipped ps si rows.enum _ i (by rw [hA]; exact hiS)]
      rw [hA]
      exact (hS i hiS).choose_spec
    · apply runSeqOk_slot ps si rows.enum _ i rows[i] hnd hmem
      · rw [hA]; exact hiS
      · rw [hA]; simpa [hlen] using hin
  · rw [List.getElem?_eq_none
        (by rw [runSeqOk_length, hA]; simpa [hlen] using Nat.le_of_not_lt hin),
      List.getElem?_eq_none
        (by rw [runSeqOk_length, hB]; simpa using Nat.le_of_not_lt hin)]

/-- C2: resume idempotence — for a deterministic inference function `ps`
over a 5-row dataset, running the batch orchestrator after loading a
checkpoint whose processed set is `{0, 1, 2, 4}` (with those slots already
filled as an uninterrupted run would fill them) produces a final
prediction vector equal, index for index, to the vector produced by one
uninterrupted run over the same 5 rows. -/
theorem C2_resume_idempotence (ps : Str → Option ℚ × ℚ) (si : ℕ)
    (r0 r1 r2 r3 r4 : Str) (T : ℚ) :
    (batchFinal ps si [r0, r1, r2, r3, r4]
        (some ⟨[(ps r0).1, (ps r1).1, (ps r2).1, none, (ps r4).1], {0, 1, 2, 4}, T⟩)).predictions =
      (batchFinal ps si [r0, r1, r2, r3, r4] none).predictions := by
  apply resume_idempotent_general
  · rfl
  · intro i hi
    fin_cases hi
    · exact ⟨by norm_num, rfl⟩
    · exact ⟨by norm_num, rfl⟩
    · exact ⟨by norm_num, rfl⟩
    · exact ⟨by norm_num, rfl⟩

/-- C3: per-item failure isolation — on every dataset row whose inference
call raises (modelled by `llm` returning `none` on that row's prompt), a
fresh sequential run records `none` in that row's slot, puts the row's
index into the processed set, counts every row (failures included) in the
checkpoint-interval counter, and dispatches every index exactly once in
order (so processing continues past the failure and the failed index is
never re-dispatched). -/
theorem C3_per_item_failure_isolation (llm : Str → Option (Str × ℚ)) (fmt : Str → Str)
    (si : ℕ) (rows : List Str) (i : ℕ) (hi : i < rows.length)
    (hfail : llm (fmt (filter_segments (remove_img_tags (preprocessing rows[i])))) = none) :
    (batchFinal (predict_single llm fmt) si rows none).predictions[i]? = some none ∧
      i ∈ (batchFinal (predict_single llm fmt) si rows none).processed_indices ∧
      (batchFinal (predict_single llm fmt) si rows none).processed_count = rows.length ∧
      (batchFinal (predict_single llm fmt) si rows none).dispatched = List.range rows.length := by
  have hnd : (rows.enum.map Prod.fst).Nodup := by
    rw [List.enum_map_fst]; exact List.nodup_range _
  have hmem : (i, rows[i]) ∈ rows.enum := by
    rw [List.mem_enum_iff_getElem?]
    simp [List.getElem?_eq_getElem hi]
  have hinit : initState rows.length (none : Option Checkpoint) =
      ⟨List.replicate rows.length none, ∅, 0, 0, [], []⟩ := rfl
  refine ⟨?_, ?_, ?_, ?_⟩
  · rw [batchFinal_predictions,
      runSeqOk_slot (predict_single llm fmt) si rows.enum _ i rows[i] hnd hmem
        (by rw [hinit]; exact Finset.not_mem_empty i) (by rw [hinit]; simpa using hi)]
    simp [predict_single, hfail]
  · rw [batchFinal_processed, runSeqOk_mem_processed]
    right
    rw [List.enum_map_fst]
    exact List.mem_range.mpr hi
  · rw [batchFinal_count, runSeqOk_count _ _ _ _ hnd]
    have : (initState rows.length (none : Option Checkpoint)).processed_indices = ∅ := rfl
    rw [this]
    simp [initState, List.enum_length]
  · rw [batchFinal_dispatched, runSeqOk_dispatched _ _ _ _ hnd]
    have : (initState rows.length (none : Option Checkpoint)).processed_indices = ∅ := rfl
    rw [this]
    have hall : rows.enum.filter (fun p => decide (p.1 ∉ (∅ : Finset ℕ))) = rows.enum := by
      apply List.filter_eq_self.mpr
      intro p _
      simp
    rw [hall]
    have : (initState rows.length (none : Option Checkpoint)).dispatched = [] := rfl
    rw [this, List.nil_append, List.enum_map_fst]

/-- C3 witness: a one-row dataset whose single inference call raises. -/
theorem C3_per_item_failure_isolation_witness :
    (batchFinal (predict_single (fun _ => none) id) 10 [([] : Str)] none).predictions[0]? =
        some none ∧
      0 ∈ (batchFinal (predict_single (fun _ => none) id) 10 [([] : Str)] none).processed_indices ∧
      (batchFinal (predict_single (fun _ => none) id) 10 [([] : Str)] none).processed_count = 1 ∧
      (batchFinal (predict_single (fun _ => none) id) 10 [([] : Str)] none).dispatched =
        List.range 1 :=
  C3_per_item_failure_isolation (fun _ => none) id 10 [[]] 0 (by decide) rfl

/-- C4 counterexample: on a concrete completed one-row run through the GUI
caller, the event trace violates "`clear` never precedes the persisting of
the output": the checkpoint is deleted at the end of `batch_predict`,
while `df.to_excel` runs only afterwards in the caller. -/
theorem C4_counterexample :
    noClearBeforePersist
        (eventsOf (run_prediction true (fun _ => (none, 0)) 10 [Except.ok []] none)) = false := by
  with_unfolding_all decide

/-- C4 amended: on every fault-free sequential run, the deletion of the
checkpoint comes only after every dataset index is in the processed set
and after the unconditional final save (of a snapshot whose processed set
contains every index) — but it comes before the caller persists the
output: the trace is always loop events, final save, clear, persist. -/
theorem C4_amended_clear_after_processing_before_persist (ps : Str → Option ℚ × ℚ)
    (si : ℕ) (rows : List Str) (ck : Option Checkpoint) :
    run_prediction true ps si (rows.map Except.ok) ck =
        .ok (some (batchFinal ps si rows ck).predictions,
          (runSeqOk ps si rows.enum (initState rows.length ck)).events ++
            [Ev.save (ckptOf (runSeqOk ps si rows.enum (initState rows.length ck))), Ev.clear,
              Ev.persistOutput]) ∧
      ∀ i < rows.length,
        i ∈ (ckptOf (runSeqOk ps si rows.enum (initState rows.length ck))).processed_indices := by
  constructor
  · unfold run_prediction
    rw [batch_predict_ok_eq]
    dsimp only
    rw [batchFinal_events]
    simp
  · intro i hi
    show i ∈ (runSeqOk ps si rows.enum (initState rows.length ck)).processed_indices
    rw [runSeqOk_mem_processed]
    right
    rw [List.enum_map_fst]
    exact List.mem_range.mpr hi

/-- C4 amended witness: full processing at clear time on a concrete run. -/
theorem C4_amended_witness :
    0 ∈ (ckptOf (runSeqOk (fun _ => (none, 0)) 10 ([([] : Str)]).enum
        (initState 1 none))).processed_indices :=
  (C4_amended_clear_after_processing_before_persist (fun _ => (none, 0)) 10 [[]] none).2 0
    (by decide)

/-- C5 counterexample: when the model fails to load at startup
(`loadOk = false`), `batch_predict` returns normally with a `None`
predictions value and performs no checkpoint save — the orchestration
fault is masked by a normal return, contradicting the claim. -/
theorem C5_counterexample :
    batch_predict false (fun _ => (none, 0)) 10 [Except.ok []] none =
        .ok (none, initState 1 none) ∧
      (initState 1 none).events = [] := by
  with_unfolding_all decide

/-- C5 amended: an orchestration-level fault raised inside the prediction
loop does trigger a checkpoint save and propagates to the caller as an
exception (the propagated state is always a just-saved one); but a
model-load failure at startup is masked — `batch_predict` returns
normally with a `None` predictions value (and no save). -/
theorem C5_amended_loop_fault_saves_and_propagates :
    (∀ (ps : Str → Option ℚ × ℚ) (si : ℕ) (rows : List (Except Unit Str))
        (ck : Option Checkpoint) (st' : LoopState),
        batch_predict true ps si rows ck = .error st' →
          ∃ stP : LoopState, st' = ckptSave stP) ∧
      ∀ (ps : Str → Option ℚ × ℚ) (si : ℕ) (rows : List (Except Unit Str))
        (ck : Option Checkpoint),
        batch_predict false ps si rows ck = .ok (none, initState rows.length ck) := by
  constructor
  · intro ps si rows ck st' h
    unfold batch_predict at h
    simp only [Bool.true_eq_false, if_false] at h
    cases hrun : runSeq ps si rows.enum (initState rows.length ck) with
    | error stE =>
      rw [hrun] at h
      have hse : stE = st' := by simpa using h
      subst hse
      exact runSeq_error_saved ps si rows.enum _ stE hrun
    | ok stO =>
      rw [hrun] at h
      simp at h
  · intro ps si rows ck
    unfold batch_predict
    simp

/-- C5 amended witness: a run whose first row faults propagates a state
whose trace ends in a save. -/
theorem C5_amended_witness :
    ∃ stP : LoopState, ckptSave (initState 1 none) = ckptSave stP :=
  (C5_amended_loop_fault_saves_and_propagates).1 (fun _ => (none, 0)) 10 [Except.error ()] none
    (ckptSave (initState 1 none)) (by with_unfolding_all decide)

/-- C7: with a loaded checkpoint whose processed set is `S`, the
orchestrator dispatches exactly the indices of `[0, n) \ S`, each exactly
once, in both the sequential mode (the `dispatched` trace) and the pooled
mode (the task list of core.py lines 349-350); in particular, with `n = 5`
and `S = {0, 1, 2, 4}` only index 3 is dispatched. -/
theorem C7_dispatch_exactly_remaining (ps : Str → Option ℚ × ℚ) (si : ℕ)
    (rows : List Str) (preds : List (Option ℚ)) (S : Finset ℕ) (T : ℚ) :
    (batchFinal ps si rows (some ⟨preds, S, T⟩)).dispatched =
        (List.range rows.length).filter (fun i => decide (i ∉ S)) ∧
      (batchFinal ps si rows (some ⟨preds, S, T⟩)).dispatched.Nodup ∧
      (pooledTasks rows S).map Prod.fst =
        (List.range rows.length).filter (fun i => decide (i ∉ S)) ∧
      (batchFinal (fun _ => (none, 0)) 10 [[], [], [], [], []]
          (some ⟨List.replicate 5 none, {0, 1, 2, 4}, 0⟩)).dispatched = [3] := by
  have hnd : (rows.enum.map Prod.fst).Nodup := by
    rw [List.enum_map_fst]; exact List.nodup_range _
  have hmain : (batchFinal ps si rows (some ⟨preds, S, T⟩)).dispatched =
      (List.range rows.length).filter (fun i => decide (i ∉ S)) := by
    rw [batchFinal_dispatched, runSeqOk_dispatched _ _ _ _ hnd]
    have h1 : (initState rows.length (some ⟨preds, S, T⟩)).dispatched = [] := rfl
    have h2 : (initState rows.length (some ⟨preds, S, T⟩)).processed_indices = S := rfl
    rw [h1, h2, List.nil_append]
    rw [← List.enum_map_fst rows, List.filter_map]
    rfl
  refine ⟨hmain, ?_, ?_, ?_⟩
  · rw [hmain]
    exact List.Nodup.filter _ (List.nodup_range _)
  · unfold pooledTasks
    rw [← List.enum_map_fst rows, List.filter_map]
    rfl
  · with_unfolding_all decide

/-- C8 counterexample: a one-row run whose single inference call fails
leaves index 0 in the processed set while its prediction slot holds
`none`, the very value that represents "unset" — so "index ∈ processed set
⟺ slot is no longer unset" fails: the code has no explicit null distinct
from the unset sentinel. -/
theorem C8_counterexample :
    0 ∈ (batchFinal (fun _ => (none, 0)) 10 [[]] none).processed_indices ∧
      (batchFinal (fun _ => (none, 0)) 10 [[]] none).predictions[0]? = some none := by
  with_unfolding_all decide

/-- C8 amended: only the backward direction of the claimed invariant holds
and is preserved: whenever the initial state satisfies it, every set
(non-`none`) slot belongs to a processed index, in the final state and in
every snapshot saved during the run; the forward direction is refuted by
`C8_counterexample` because a failed item's slot holds `none`, which is
indistinguishable from the unset sentinel. -/
theorem C8_amended_set_slots_are_processed (ps : Str → Option ℚ × ℚ) (si : ℕ)
    (rows : List Str) (ck : Option Checkpoint)
    (h : SlotInv (initState rows.length ck).predictions
      (initState rows.length ck).processed_indices) :
    SlotInv (batchFinal ps si rows ck).predictions
        (batchFinal ps si rows ck).processed_indices ∧
      ∀ c, Ev.save c ∈ (batchFinal ps si rows ck).events →
        SlotInv c.predictions c.processed_indices := by
  have hinit : ∀ c, Ev.save c ∈ (initState rows.length ck).events →
      SlotInv c.predictions c.processed_indices := by
    intro c hc
    have : (initState rows.length ck).events = [] := by cases ck <;> rfl
    rw [this] at hc
    cases hc
  have hrun := runSeqOk_SlotInv ps si rows.enum (initState rows.length ck) h hinit
  constructor
  · exact hrun.1
  · intro c hc
    rw [batchFinal_events] at hc
    rcases List.mem_append.mp hc with hc' | hc'
    · exact hrun.2 c hc'
    · simp only [List.mem_cons, List.not_mem_nil, or_false] at hc'
      rcases hc' with hc' | hc'
      · cases hc'
        exact hrun.1
      · cases hc'

/-! ### Character-level lemmas for the extractor claims -/

theorem isDigit_normChar (c : Char) : isDigit (normChar c) = isDigit c := by
  unfold normChar
  split_ifs with h1 h2 h3 h4 h5 h6
  · rw [h1]; decide
  · rw [h2]; decide
  · rw [h3]; decide
  · rw [h4]; decide
  · rw [h5]; decide
  · rw [h6]; decide
  · rfl

theorem any_isDigit_map_normChar (s : Str) :
    (s.map normChar).any isDigit = s.any isDigit := by
  induction s with
  | nil => rfl
  | cons c cs ih => simp only [List.map_cons, List.any_cons, isDigit_normChar, ih]

theorem any_isDigit_removeSubF (p : Char) (ps : Str)
    (hpat : (p :: ps).any isDigit = false) :
    ∀ (fuel : ℕ) (s : Str), s.length ≤ fuel →
      (removeSubF p ps fuel s).any isDigit = s.any isDigit := by
  intro fuel
  induction fuel with
  | zero =>
    intro s hs
    rw [List.eq_nil_of_length_eq_zero (Nat.le_zero.mp hs)]
    rfl
  | succ fuel ih =>
    intro s hs
    cases s with
    | nil => rfl
    | cons x xs =>
      simp only [removeSubF]
      by_cases hp : (p :: ps).isPrefixOf (x :: xs) = true
      · rw [if_pos hp]
        obtain ⟨t, ht⟩ := List.isPrefixOf_iff_prefix.mp hp
        have hdrop : xs.drop ps.length = t := by
          have h1 : ((p :: ps) ++ t).drop (p :: ps).length = t := List.drop_left _ _
          rw [ht] at h1
          simpa [List.drop_succ_cons] using h1
        have hlent : t.length ≤ fuel := by
          have := congrArg List.length ht
          simp only [List.length_append, List.length_cons] at this hs
          omega
        rw [hdrop, ih t hlent, ← ht]
        simp only [List.any_append, hpat, Bool.false_or]
      · rw [if_neg hp]
        have hxs : xs.length ≤ fuel := by
          simp only [List.length_cons] at hs
          omega
        simp only [List.any_cons, ih xs hxs]

theorem scanNumsF_eq_nil_iff :
    ∀ (fuel : ℕ) (cs : Str), cs.length ≤ fuel →
      (scanNumsF fuel cs = [] ↔ cs.any isDigit = false) := by
  intro fuel
  induction fuel with
  | zero =>
    intro cs hcs
    rw [List.eq_nil_of_length_eq_zero (Nat.le_zero.mp hcs)]
    simp [scanNumsF]
  | succ fuel ih =>
    intro cs hcs
    cases cs with
    | nil => simp [scanNumsF]
    | cons c cs' =>
      have hcs' : cs'.length ≤ fuel := by
        simp only [List.length_cons] at hcs
        omega
      simp only [scanNumsF, List.any_cons]
      by_cases hd : isDigit c = true
      · rw [if_pos hd]
        simp [hd]
      · rw [if_neg hd]
        rw [ih cs' hcs']
        simp [Bool.eq_false_iff.mpr hd]

theorem bareNumsF_eq_nil_iff :
    ∀ (fuel : ℕ) (cs : Str), cs.length ≤ fuel →
      (bareNumsF fuel cs = [] ↔ cs.any isDigit = false) := by
  intro fuel
  induction fuel with
  | zero =>
    intro cs hcs
    rw [List.eq_nil_of_length_eq_zero (Nat.le_zero.mp hcs)]
    simp [bareNumsF]
  | succ fuel ih =>
    intro cs hcs
    cases cs with
    | nil => simp [bareNumsF]
    | cons c cs' =>
      have hcs' : cs'.length ≤ fuel := by
        simp only [List.length_cons] at hcs
        omega
      simp only [bareNumsF, List.any_cons]
      by_cases hd : isDigit c = true
      · rw [if_pos hd]
        simp [hd]
      · rw [if_neg hd]
        rw [ih cs' hcs']
        simp [Bool.eq_false_iff.mpr hd]

theorem any_isDigit_pyNormalize (t : Str) :
    (pyNormalize t).any isDigit = t.any isDigit := by
  unfold pyNormalize removeSub
  rw [any_isDigit_removeSubF '(' ['b', 'r', 'n', ')'] (by decide) _ _ (le_refl _)]
  exact any_isDigit_map_normChar t

theorem normChar_digit (c : Char) (h : isDigit c = true) : normChar c = c := by
  unfold normChar
  split_ifs with h1 h2 h3 h4 h5 h6
  · subst h1; exact absurd h (by decide)
  · subst h2; exact absurd h (by decide)
  · subst h3; exact absurd h (by decide)
  · subst h4; exact absurd h (by decide)
  · subst h5; exact absurd h (by decide)
  · subst h6; exact absurd h (by decide)
  · rfl

theorem map_normChar_digits (l : Str) (h : ∀ c ∈ l, isDigit c = true) :
    l.map normChar = l := by
  induction l with
  | nil => rfl
  | cons c cs ih =>
    simp [normChar_digit c (h c (List.mem_cons_self _ _)),
      ih (fun x hx => h x (List.mem_cons_of_mem _ hx))]

theorem normChar_ne_lparen (c : Char) (h1 : c ≠ '(') (h2 : c ≠ '（') :
    normChar c ≠ '(' := by
  unfold normChar
  split_ifs with g1 g2 g3 g4 g5 g6
  · exact absurd g1 h2
  · decide
  · decide
  · decide
  · decide
  · decide
  · exact h1

theorem digit_ne_lparen (c : Char) (h : isDigit c = true) : c ≠ '(' := by
  intro hc
  subst hc
  exact absurd h (by decide)

theorem removeSubF_id (p : Char) (ps : Str) :
    ∀ (fuel : ℕ) (s : Str), s.length ≤ fuel → (∀ c ∈ s, c ≠ p) →
      removeSubF p ps fuel s = s := by
  intro fuel
  induction fuel with
  | zero =>
    intro s hs _
    rw [List.eq_nil_of_length_eq_zero (Nat.le_zero.mp hs)]
    rfl
  | succ fuel ih =>
    intro s hs h
    cases s with
    | nil => rfl
    | cons x xs =>
      have hp : ¬((p :: ps).isPrefixOf (x :: xs) = true) := by
        intro hpre
        obtain ⟨t, ht⟩ := List.isPrefixOf_iff_prefix.mp hpre
        have hpx : p = x := by
          have := congrArg (fun l => l.head?) ht
          simpa using this
        exact h x (List.mem_cons_self _ _) hpx.symm
      simp only [removeSubF, if_neg hp]
      rw [ih xs (by simp only [List.length_cons] at hs; omega)
        (fun c hc => h c (List.mem_cons_of_mem _ hc))]

theorem splitDigits_append_cons (ds : Str) (c : Char) (rest : Str)
    (hds : ∀ x ∈ ds, isDigit x = true) (hc : isDigit c = false) :
    splitDigits (ds ++ c :: rest) = (ds, c :: rest) := by
  induction ds with
  | nil => simp [splitDigits, hc]
  | cons d ds' ih =>
    simp only [List.cons_append, splitDigits, List.append_eq]
    rw [if_pos (hds d (List.mem_cons_self d ds')),
      ih (fun x hx => hds x (List.mem_cons_of_mem d hx))]

theorem dropSpaces_cons_of (c : Char) (cs : Str) (h : isSpaceChar c = false) :
    dropSpaces (c :: cs) = c :: cs := by
  simp [dropSpaces, h]

theorem matchUnit_cm (post : Str) : matchUnit ('c' :: 'm' :: post) = some ("cm", post) := by
  have hc : lowerChar 'c' = 'c' := by decide
  have hm : lowerChar 'm' = 'm' := by decide
  simp [matchUnit, hc, hm]

theorem numMatch_token (ip fp frac post : Str)
    (hipd : ∀ c ∈ ip, isDigit c = true)
    (hfrac : frac = [] ∧ fp = [] ∨ frac = '.' :: fp)
    (hfpd : ∀ c ∈ fp, isDigit c = true) :
    numMatch (ip ++ frac ++ 'c' :: 'm' :: post) = (numValue ip fp, some "cm", post) := by
  have hd : dropSpaces ('c' :: 'm' :: post) = 'c' :: 'm' :: post :=
    dropSpaces_cons_of 'c' _ (by decide)
  have hu := matchUnit_cm post
  rcases hfrac with ⟨rfl, rfl⟩ | rfl
  · rw [show ip ++ ([] : Str) ++ 'c' :: 'm' :: post = ip ++ 'c' :: 'm' :: post from by simp]
    have h2 : splitDigits (ip ++ 'c' :: 'm' :: post) = (ip, 'c' :: 'm' :: post) :=
      splitDigits_append_cons ip 'c' ('m' :: post) hipd (by decide)
    simp only [numMatch, h2]
    rw [show fracSplit ('c' :: 'm' :: post) = ([], 'c' :: 'm' :: post) from rfl]
    simp only [hd, hu]
  · rw [show ip ++ ('.' :: fp) ++ 'c' :: 'm' :: post =
        ip ++ '.' :: (fp ++ 'c' :: 'm' :: post) from by simp]
    have h2 : splitDigits (ip ++ '.' :: (fp ++ 'c' :: 'm' :: post)) =
        (ip, '.' :: (fp ++ 'c' :: 'm' :: post)) :=
      splitDigits_append_cons ip '.' (fp ++ 'c' :: 'm' :: post) hipd (by decide)
    have h3 : splitDigits (fp ++ 'c' :: 'm' :: post) = (fp, 'c' :: 'm' :: post) :=
      splitDigits_append_cons fp 'c' ('m' :: post) hfpd (by decide)
    simp only [numMatch, h2]
    rw [show fracSplit ('.' :: (fp ++ 'c' :: 'm' :: post)) =
        splitDigits (fp ++ 'c' :: 'm' :: post) from rfl, h3]
    simp only [hd, hu]

theorem scanNumsF_skip :
    ∀ (a : Str) (fuel : ℕ) (b : Str), (a ++ b).length ≤ fuel → a.any isDigit = false →
      scanNumsF fuel (a ++ b) = scanNumsF (fuel - a.length) b := by
  intro a
  induction a with
  | nil => intro fuel b _ _; simp
  | cons c a' ih =>
    intro fuel b hlen ha
    simp only [List.any_cons, Bool.or_eq_false_iff] at ha
    cases fuel with
    | zero => simp at hlen
    | succ fuel =>
      simp only [List.cons_append, scanNumsF, List.append_eq]
      rw [if_neg (by simp [ha.1])]
      rw [ih fuel b (by simp only [List.cons_append, List.length_cons] at hlen; omega) ha.2]
      simp [Nat.succ_sub_succ]

theorem scanNumsF_token (fuel : ℕ) (ip fp frac post : Str)
    (hip : ip ≠ []) (hipd : ∀ c ∈ ip, isDigit c = true)
    (hfrac : frac = [] ∧ fp = [] ∨ frac = '.' :: fp)
    (hfpd : ∀ c ∈ fp, isDigit c = true)
    (hpost : post.any isDigit = false)
    (hlen : (ip ++ frac ++ 'c' :: 'm' :: post).length ≤ fuel) :
    scanNumsF fuel (ip ++ frac ++ 'c' :: 'm' :: post) = [(numValue ip fp, some "cm")] := by
  obtain ⟨c0, ip', rfl⟩ : ∃ c0 ip', ip = c0 :: ip' := by
    cases ip with
    | nil => exact absurd rfl hip
    | cons a b => exact ⟨a, b, rfl⟩
  cases fuel with
  | zero => simp at hlen
  | succ fuel =>
    simp only [List.cons_append, scanNumsF, List.append_eq]
    rw [if_pos (hipd c0 (List.mem_cons_self _ _))]
    have hnm := numMatch_token (c0 :: ip') fp frac post hipd hfrac hfpd
    rw [show (c0 :: ip') ++ frac ++ 'c' :: 'm' :: post =
        c0 :: (ip' ++ frac ++ 'c' :: 'm' :: post) from by simp] at hnm
    rw [hnm]
    have hpostlen : post.length ≤ fuel := by
      simp only [List.cons_append, List.length_cons, List.length_append] at hlen
      omega
    rw [(scanNumsF_eq_nil_iff fuel post hpostlen).mpr hpost]

/-! ### Claim C1 -/

/-- C1 counterexample: `"0.1cm"` contains exactly one decimal number, 0.1,
immediately forming a `<N>cm` token and no other number, yet the extractor
returns 10 rather than 10 × 0.1 = 1: the context-correction pass sees
`has_cm` on the raw text and re-multiplies the already-converted value
(1 < 3). -/
theorem C1_counterexample :
    core.extract_max_value "0.1cm".data "0.1cm".data = some 10 ∧
      (10 : ℚ) ≠ 10 * numValue ['0'] ['1'] := by
  with_unfolding_all decide

/-- C1 amended: for every input consisting of exactly one decimal number
`N` immediately followed by `cm` and otherwise digit-free (and free of the
bracket characters consumed by the `(brn)` noise-token removal), the
extractor returns `10 × N` **provided `10 × N ≥ 7`**; for smaller `N` the
context-correction pass multiplies once more (`10 × N < 3` always, and
`10 × N ∈ [3, 7)` when the text lacks millimeter evidence), as the
counterexample shows. -/
theorem C1_cm_token_extraction (pre post ip fp frac : Str)
    (hpre_d : pre.any isDigit = false)
    (hpre_b : ∀ c ∈ pre, c ≠ '(' ∧ c ≠ '（')
    (hpost_d : post.any isDigit = false)
    (hpost_b : ∀ c ∈ post, c ≠ '(' ∧ c ≠ '（')
    (hip : ip ≠ []) (hipd : ∀ c ∈ ip, isDigit c = true)
    (hfrac : frac = [] ∧ fp = [] ∨ frac = '.' :: fp)
    (hfpd : ∀ c ∈ fp, isDigit c = true)
    (hval : 7 ≤ 10 * numValue ip fp) :
    core.extract_max_value (pre ++ ip ++ frac ++ 'c' :: 'm' :: post)
        (pre ++ ip ++ frac ++ 'c' :: 'm' :: post) = some (10 * numValue ip fp) := by
  have hfracmap : frac.map normChar = frac := by
    rcases hfrac with ⟨rfl, -⟩ | rfl
    · rfl
    · simp only [List.map_cons]
      rw [show normChar '.' = '.' from by decide, map_normChar_digits fp hfpd]
  have hmap : (pre ++ ip ++ frac ++ 'c' :: 'm' :: post).map normChar =
      pre.map normChar ++ ip ++ frac ++ 'c' :: 'm' :: post.map normChar := by
    simp only [List.map_append, List.map_cons]
    rw [map_normChar_digits ip hipd, hfracmap,
      show normChar 'c' = 'c' from by decide, show normChar 'm' = 'm' from by decide]
  have hnolp : ∀ c ∈ pre.map normChar ++ ip ++ frac ++ 'c' :: 'm' :: post.map normChar,
      c ≠ '(' := by
    intro c hc
    simp only [List.mem_append, List.mem_cons, List.mem_map] at hc
    rcases hc with ((⟨x, hx, rfl⟩ | hcip) | hcfrac) | rfl | rfl | ⟨x, hx, rfl⟩
    · exact normChar_ne_lparen x (hpre_b x hx).1 (hpre_b x hx).2
    · exact digit_ne_lparen c (hipd c hcip)
    · rcases hfrac with ⟨rfl, -⟩ | rfl
      · cases hcfrac
      · rcases List.mem_cons.mp hcfrac with rfl | hcfp
        · decide
        · exact digit_ne_lparen c (hfpd c hcfp)
    · decide
    · decide
    · exact normChar_ne_lparen x (hpost_b x hx).1 (hpost_b x hx).2
  have hnorm : pyNormalize (pre ++ ip ++ frac ++ 'c' :: 'm' :: post) =
      pre.map normChar ++ ip ++ frac ++ 'c' :: 'm' :: post.map normChar := by
    unfold pyNormalize removeSub
    rw [hmap]
    exact removeSubF_id '(' ['b', 'r', 'n', ')'] _ _ (le_refl _) hnolp
  have hpre' : (pre.map normChar).any isDigit = false := by
    rw [any_isDigit_map_normChar]; exact hpre_d
  have hpost' : (post.map normChar).any isDigit = false := by
    rw [any_isDigit_map_normChar]; exact hpost_d
  have hscan : scanNums (pyNormalize (pre ++ ip ++ frac ++ 'c' :: 'm' :: post)) =
      [(numValue ip fp, some "cm")] := by
    unfold scanNums
    rw [hnorm]
    rw [show pre.map normChar ++ ip ++ frac ++ 'c' :: 'm' :: post.map normChar =
        pre.map normChar ++ (ip ++ frac ++ 'c' :: 'm' :: post.map normChar) from by simp]
    rw [scanNumsF_skip (pre.map normChar) _ _ (le_refl _) hpre']
    apply scanNumsF_token _ ip fp frac (post.map normChar) hip hipd hfrac hfpd hpost'
    simp [List.length_append]
  have hmaxc : maxCandidate (pre ++ ip ++ frac ++ 'c' :: 'm' :: post) =
      some (numValue ip fp * 10) := by
    simp only [maxCandidate, candidateList, primaryCandidates, hscan]
    simp [List.max?]
  unfold core.extract_max_value
  rw [hmaxc]
  simp only [Option.map_some']
  unfold finalAdjust
  rw [if_neg (by rintro ⟨h3, -⟩; linarith), if_neg (by rintro ⟨-, h7, -⟩; linarith)]
  rw [mul_comm]

/-- C1 amended witness: the input `"1cm"`. -/
theorem C1_cm_token_extraction_witness :
    core.extract_max_value ['1', 'c', 'm'] ['1', 'c', 'm'] = some (10 * numValue ['1'] []) :=
  C1_cm_token_extraction [] [] ['1'] [] [] rfl (by simp) rfl (by simp) (by decide)
    (by decide) (Or.inl ⟨rfl, rfl⟩) (by simp) (by with_unfolding_all decide)

/-! ### Claim C9: annotation-tag stripping -/

theorem findClose_append (b2 : Str) (cl : Char) (post : Str)
    (hb2 : ∀ c ∈ b2, isCloseB c = false) (hcl : isCloseB cl = true) :
    findClose (b2 ++ cl :: post) = some (b2 ++ [cl], post) := by
  induction b2 with
  | nil => simp [findClose, hcl]
  | cons x xs ih =>
    have hx : isCloseB x = false := hb2 x (List.mem_cons_self _ _)
    simp only [List.cons_append, findClose, List.append_eq, hx, Bool.false_eq_true, if_false,
      ih (fun c hc => hb2 c (List.mem_cons_of_mem _ hc)), Option.map_some']

theorem findMarker_append (body : Str) (tail : Str)
    (hb : ∀ c ∈ body, isCloseB c = false) (hm : containsMarker body = true) :
    ∃ s1 b2, findMarker (body ++ tail) = some (s1, b2 ++ tail) ∧ s1 ++ b2 = body ∧
      ∀ c ∈ b2, isCloseB c = false := by
  induction body with
  | nil => simp [containsMarker] at hm
  | cons c1 body' ih =>
    cases body' with
    | nil => simp [containsMarker] at hm
    | cons c2 rest =>
      cases hmk : markerHead c1 c2 with
      | true =>
        refine ⟨[c1, c2], rest, ?_, rfl,
          fun c hc => hb c (List.mem_cons_of_mem _ (List.mem_cons_of_mem _ hc))⟩
        simp [findMarker, hmk]
      | false =>
        have hc1 : isCloseB c1 = false := hb c1 (List.mem_cons_self _ _)
        have hm' : containsMarker (c2 :: rest) = true := by
          have heq : containsMarker (c1 :: c2 :: rest) =
              (markerHead c1 c2 || containsMarker (c2 :: rest)) := rfl
          rw [heq, hmk, Bool.false_or] at hm
          exact hm
        obtain ⟨s1, b2, hf, hsb, hb2⟩ :=
          ih (fun c hc => hb c (List.mem_cons_of_mem _ hc)) hm'
        refine ⟨c1 :: s1, b2, ?_, by rw [List.cons_append, hsb], hb2⟩
        rw [show (c2 :: rest) ++ tail = c2 :: (rest ++ tail) from by simp] at hf
        simp [findMarker, hmk, hc1, hf]

theorem tryTagMatch_frag (copen : Char) (body : Str) (cl : Char) (post : Str)
    (hb : ∀ c ∈ body, isCloseB c = false) (hm : containsMarker body = true)
    (hcl : isCloseB cl = true) :
    tryTagMatch copen (body ++ cl :: post) = some (copen :: body ++ [cl], post) := by
  obtain ⟨s1, b2, hf, hsb, hb2⟩ := findMarker_append body (cl :: post) hb hm
  unfold tryTagMatch
  rw [hf]
  dsimp only
  rw [findClose_append b2 cl post hb2 hcl]
  dsimp only
  rw [show s1 ++ (b2 ++ [cl]) = (s1 ++ b2) ++ [cl] from by simp, hsb]
  simp

theorem remove_img_tagsF_skip :
    ∀ (pre : Str) (fuel : ℕ) (rest : Str), (pre ++ rest).length ≤ fuel →
      (∀ c ∈ pre, isOpenB c = false) →
      remove_img_tagsF fuel (pre ++ rest) =
        pre ++ remove_img_tagsF (fuel - pre.length) rest := by
  intro pre
  induction pre with
  | nil => intro fuel rest _ _; simp
  | cons c pre' ih =>
    intro fuel rest hlen hpre
    have hc : isOpenB c = false := hpre c (List.mem_cons_self _ _)
    cases fuel with
    | zero => simp at hlen
    | succ fuel =>
      simp only [List.cons_append, remove_img_tagsF, List.append_eq]
      rw [if_neg (by simp [hc])]
      rw [ih fuel rest (by simp only [List.cons_append, List.length_cons] at hlen; omega)
        (fun x hx => hpre x (List.mem_cons_of_mem _ hx))]
      simp [Nat.succ_sub_succ]

theorem remove_img_tagsF_id (post : Str) (fuel : ℕ) (hlen : post.length ≤ fuel)
    (hpost : ∀ c ∈ post, isOpenB c = false) :
    remove_img_tagsF fuel post = post := by
  have h := remove_img_tagsF_skip post fuel [] (by simpa using hlen) hpost
  simpa [remove_img_tagsF] using h

theorem remove_img_tagsF_frag (fuel : ℕ) (body post : Str) (copen cl : Char)
    (hlen : (copen :: body ++ cl :: post).length ≤ fuel)
    (ho : isOpenB copen = true) (hcl : isCloseB cl = true)
    (hb : ∀ c ∈ body, isCloseB c = false) (hm : containsMarker body = true)
    (hp : ∀ c ∈ post, isOpenB c = false) :
    remove_img_tagsF fuel (copen :: body ++ cl :: post) =
      if body.length + 2 ≤ 20 then post else copen :: body ++ cl :: post := by
  cases fuel with
  | zero => simp at hlen
  | succ fuel =>
    have hpostlen : post.length ≤ fuel := by
      simp only [List.length_cons, List.length_append] at hlen
      omega
    simp only [List.cons_append, remove_img_tagsF, List.append_eq]
    rw [if_pos ho]
    rw [show body ++ cl :: post = body ++ (cl :: post) from rfl,
      tryTagMatch_frag copen body cl post hb hm hcl]
    dsimp only
    rw [remove_img_tagsF_id post fuel hpostlen hp]
    have hflen : (copen :: body ++ [cl]).length = body.length + 2 := by
      simp
    by_cases h20 : body.length + 2 ≤ 20
    · rw [if_pos (by rw [hflen]; exact h20), if_pos h20]
    · rw [if_neg (by rw [hflen]; exact h20), if_neg h20]
      simp

/-- C9: a bracket-enclosed fragment (ASCII or full-width brackets, body free
of closing brackets) containing, case-insensitively, one of the marker
substrings (`lm`/`im`, hence also any `img`) is removed entirely when the
whole fragment (brackets included) is at most 20 characters long, and is
left verbatim when longer, in any context free of further opening
brackets. -/
theorem C9_annotation_tag_stripping (pre body post : Str) (copen cl : Char)
    (ho : isOpenB copen = true) (hcl : isCloseB cl = true)
    (hpre : ∀ c ∈ pre, isOpenB c = false)
    (hpost : ∀ c ∈ post, isOpenB c = false)
    (hb : ∀ c ∈ body, isCloseB c = false)
    (hm : containsMarker body = true) :
    remove_img_tags (pre ++ copen :: body ++ cl :: post) =
      if body.length + 2 ≤ 20 then pre ++ post
      else pre ++ copen :: body ++ cl :: post := by
  unfold remove_img_tags
  rw [show (pre ++ copen :: body ++ cl :: post : Str) =
      pre ++ ((copen :: body) ++ (cl :: post)) from by simp]
  rw [remove_img_tagsF_skip pre _ ((copen :: body) ++ (cl :: post)) (le_refl _) hpre]
  rw [remove_img_tagsF_frag _ body post copen cl
    (by simp only [List.length_append, List.length_cons]; omega) ho hcl hb hm hpost]
  by_cases h20 : body.length + 2 ≤ 20
  · rw [if_pos h20, if_pos h20]
  · rw [if_neg h20, if_neg h20]

/-- C9 witness: `"a(img1)b"` loses the whole short fragment. -/
theorem C9_annotation_tag_stripping_witness :
    remove_img_tags ['a', '(', 'i', 'm', 'g', '1', ')', 'b'] = ['a', 'b'] := by
  have h := C9_annotation_tag_stripping ['a'] ['i', 'm', 'g', '1'] ['b'] '(' ')'
    (by decide) (by decide) (by decide) (by decide) (by decide) (by decide)
  simpa using h

/-! ### Claim C10 -/

/-- C10 counterexample: on the full-width digit `'３'` the extractor
returns 3 even though the text contains no ASCII digit — Python's `\d`
matches every Unicode decimal digit and `float('３') = 3.0`, so the
claimed "`none` iff no ASCII digit" fails in the backward direction. -/
theorem C10_counterexample :
    core.extract_max_value ['３'] [] = some 3 ∧
      (['３'] : Str).any isAsciiDigit = false := by
  with_unfolding_all decide

/-- C10 amended: `extract_max_value` returns `none` iff the generated text
contains no Unicode decimal digit (the class `\d` actually matches; for an
ASCII-only text this coincides with the original wording, but the
"ASCII digit" reading itself is refuted by `C10_counterexample`); and
since the unit token of the primary pattern is optional, the primary scan
already captures every bare decimal number — the fallback scan can never
produce a candidate when the primary scan produced none. -/
theorem C10_none_iff_no_decimal_digit (t raw : Str) :
    (core.extract_max_value t raw = none ↔ t.any isDigit = false) ∧
      (primaryCandidates (pyNormalize t) = [] → bareNums (pyNormalize t) = []) := by
  have hprim : primaryCandidates (pyNormalize t) = [] ↔
      (pyNormalize t).any isDigit = false := by
    unfold primaryCandidates scanNums
    rw [List.map_eq_nil_iff]
    exact scanNumsF_eq_nil_iff _ _ (le_refl _)
  have hbare : (pyNormalize t).any isDigit = false → bareNums (pyNormalize t) = [] := by
    intro h
    unfold bareNums
    exact (bareNumsF_eq_nil_iff _ _ (le_refl _)).mpr h
  have hcand : candidateList t = [] ↔ t.any isDigit = false := by
    unfold candidateList
    rw [← any_isDigit_pyNormalize t]
    by_cases hp : primaryCandidates (pyNormalize t) = []
    · rw [if_pos hp]
      constructor
      · intro _; exact hprim.mp hp
      · intro _; exact hbare (hprim.mp hp)
    · rw [if_neg hp]
      constructor
      · intro h; exact absurd h hp
      · intro h; exact absurd (hprim.mpr h) hp
  refine ⟨?_, fun hp => hbare (hprim.mp hp)⟩
  unfold core.extract_max_value maxCandidate
  rw [Option.map_eq_none', List.max?_eq_none_iff]
  exact hcand

/-- C10 amended witness: a digit-free text. -/
theorem C10_none_iff_no_decimal_digit_witness :
    bareNums (pyNormalize ['a', 'b']) = [] :=
  (C10_none_iff_no_decimal_digit ['a', 'b'] []).2 (by decide)

/-! ### Claim C6: the two extractor variants -/

theorem finalAdjust_band (cm mm : Bool) (v : ℚ) (h5 : 5 ≤ v) (h7 : v < 7)
    (hcm : cm = true) (hmm : mm = false) :
    finalAdjust 7 cm mm v = v * 10 ∧ finalAdjust 5 cm mm v = v := by
  constructor
  · unfold finalAdjust
    rw [if_neg (by rintro ⟨h3, -⟩; linarith), if_pos ⟨by linarith, h7, hcm, hmm⟩]
  · unfold finalAdjust
    rw [if_neg (by rintro ⟨h3, -⟩; linarith), if_neg (by rintro ⟨-, h5', -⟩; linarith)]

theorem finalAdjust_eq_of_not_band (cm mm : Bool) (v : ℚ)
    (h : ¬(5 ≤ v ∧ v < 7 ∧ cm = true ∧ mm = false)) :
    finalAdjust 7 cm mm v = finalAdjust 5 cm mm v := by
  unfold finalAdjust
  by_cases h1 : v < 3 ∧ cm = true
  · rw [if_pos h1, if_pos h1]
  · rw [if_neg h1, if_neg h1]
    by_cases h2 : 3 ≤ v ∧ v < 5 ∧ cm = true ∧ mm = false
    · rw [if_pos ⟨h2.1, by linarith [h2.2.1], h2.2.2⟩, if_pos h2]
    · by_cases h3 : 3 ≤ v ∧ v < 7 ∧ cm = true ∧ mm = false
      · exfalso
        obtain ⟨h3v, h7v, hcmv, hmmv⟩ := h3
        apply h
        refine ⟨?_, h7v, hcmv, hmmv⟩
        by_contra h5v
        exact h2 ⟨h3v, lt_of_not_ge h5v, hcmv, hmmv⟩
      · rw [if_neg h3, if_neg h2]

/-- The exact condition on which the two near-duplicate extractors
diverge. -/
def diffBand (t raw : Str) : Prop :=
  ∃ v, maxCandidate t = some v ∧ 5 ≤ v ∧ v < 7 ∧ has_cm raw = true ∧ has_mm raw = false

/-- C6: the extractors of core.py and main.py return equal results for
every `(generated_text, raw_text)` pair, except exactly those pairs where
the maximum unit-converted candidate lies in `[5, 7)` and the raw text has
centimeter evidence and no millimeter evidence; on those pairs the core.py
variant returns 10 times the main.py variant's result. -/
theorem C6_variant_divergence (t raw : Str) :
    (diffBand t raw →
        (∃ v, main.extract_max_value t raw = some v ∧
          core.extract_max_value t raw = some (10 * v)) ∧
          core.extract_max_value t raw ≠ main.extract_max_value t raw) ∧
      (¬diffBand t raw → core.extract_max_value t raw = main.extract_max_value t raw) := by
  constructor
  · rintro ⟨v, hv, h5, h7, hcm, hmm⟩
    have hb := finalAdjust_band (has_cm raw) (has_mm raw) v h5 h7 hcm hmm
    unfold core.extract_max_value main.extract_max_value
    rw [hv]
    simp only [Option.map_some', hb.1, hb.2]
    refine ⟨⟨v, rfl, by rw [mul_comm]⟩, ?_⟩
    intro hc
    have : v * 10 = v := by simpa using hc
    linarith
  · intro hnd
    unfold core.extract_max_value main.extract_max_value
    cases hmax : maxCandidate t with
    | none => rfl
    | some v =>
      simp only [Option.map_some']
      congr 1
      apply finalAdjust_eq_of_not_band
      rintro ⟨h5, h7, hcm, hmm⟩
      exact hnd ⟨v, hmax, h5, h7, hcm, hmm⟩

/-- C6 witness: on `("5", "5cm")` the band is hit — main.py returns 5,
core.py returns 50. -/
theorem C6_variant_divergence_witness :
    (∃ v, main.extract_max_value "5".data "5cm".data = some v ∧
        core.extract_max_value "5".data "5cm".data = some (10 * v)) ∧
      core.extract_max_value "5".data "5cm".data ≠
        main.extract_max_value "5".data "5cm".data :=
  (C6_variant_divergence "5".data "5cm".data).1
    ⟨5, by with_unfolding_all decide, by norm_num, by norm_num, by decide, by decide⟩

/-- C8 amended witness: a concrete fresh one-row run. -/
theorem C8_amended_witness :
    SlotInv (batchFinal (fun _ => (none, 0)) 10 [[]] none).predictions
        (batchFinal (fun _ => (none, 0)) 10 [[]] none).processed_indices ∧
      ∀ c, Ev.save c ∈ (batchFinal (fun _ => (none, 0)) 10 [[]] none).events →
        SlotInv c.predictions c.processed_indices :=
  C8_amended_set_slots_are_processed (fun _ => (none, 0)) 10 [[]] none
    (by
      intro i v hiv
      rcases i with _ | i <;> simp [initState, List.replicate] at hiv)

end TxtLung
